import Mathlib

/-!
Verification of the block-rules registry from
`client/service/src/client/block_rules.rs`.

The registry is parameterized over a block number type `N` and a hash
type `H`, both with decidable equality (mirroring the `Hash`/`Eq`
requirements on the Rust generic parameters).  Rust's `HashSet` fields
are embedded as duplicate-free-by-construction lists with membership
tests; the `HashMap<NumberFor<B>, B::Hash>` built by
`fork_blocks.into_iter().collect()` is embedded by keeping the
underlying pair sequence and giving it the map's last-wins query
semantics (`forksGet`), exactly what collecting into a `HashMap` and
then calling `get` produces.
-/

namespace BlockRulesSpec

variable {N H : Type} [DecidableEq N] [DecidableEq H]

/-- Chain specification rules lookup result (`LookupResult` in the source). -/
inductive LookupResult (H : Type) where
  /-- Specification rules do not contain any special rules about this block -/
  | NotSpecial : LookupResult H
  /-- The block is known to be bad and should not be imported -/
  | KnownBad : LookupResult H
  /-- The block is known not to be finalized -/
  | KnownUnfinalized : LookupResult H
  /-- There is a specified canonical block hash for the given height -/
  | Expected : H → LookupResult H
deriving DecidableEq

/-- Source `LookupResult::is_unfinalized`: whether the result indicates a block
that should not be finalized. -/
def LookupResult.is_unfinalized (r : LookupResult H) : Bool :=
  match r with
  | LookupResult.KnownUnfinalized => true
  | _ => false

/-- Query of the fork map built from the pair sequence by
`into_iter().collect()`: each pair is inserted in order, later inserts
overwriting earlier ones, so `get` returns the value of the last pair
whose key matches. -/
def forksGet (forks : List (N × H)) (number : N) : Option H :=
  forks.foldl (fun acc p => if p.1 = number then some p.2 else acc) none

/-- Source `HashSet::insert`: adds the element unless it is already present. -/
def insertHash (s : List H) (hash : H) : List H :=
  if hash ∈ s then s else s ++ [hash]

/-- Chain-specific block filtering rules (`BlockRules` in the source). -/
structure BlockRules (N H : Type) where
  bad : List H
  unfinalized : List H
  forks : List (N × H)

/-- Source `BlockRules::new`: new block rules with provided black and white lists.
`fork_blocks` and `bad_blocks` are `Option`s, defaulted to empty via
`unwrap_or`. -/
def BlockRules.new (fork_blocks : Option (List (N × H)))
    (bad_blocks : Option (List H)) : BlockRules N H :=
  { bad := bad_blocks.getD []
    forks := fork_blocks.getD []
    unfinalized := [] }

/-- Source `BlockRules::mark_unfinalized`: mark a block as not possible to be
finalized. -/
def BlockRules.mark_unfinalized (r : BlockRules N H) (hash : H) :
    BlockRules N H :=
  { r with unfinalized := insertHash r.unfinalized hash }

/-- Source `BlockRules::lookup`: check if there's any rule affecting the given
block.  The early returns of the Rust body become nested conditionals. -/
def BlockRules.lookup (r : BlockRules N H) (number : N) (hash : H) :
    LookupResult H :=
  match forksGet r.forks number with
  | some hash_for_height =>
      if hash_for_height ≠ hash then
        LookupResult.Expected hash_for_height
      else if hash ∈ r.bad then
        LookupResult.KnownBad
      else if hash ∈ r.unfinalized then
        LookupResult.KnownUnfinalized
      else
        LookupResult.NotSpecial
  | none =>
      if hash ∈ r.bad then
        LookupResult.KnownBad
      else if hash ∈ r.unfinalized then
        LookupResult.KnownUnfinalized
      else
        LookupResult.NotSpecial

/-- Source `BlockRules::lookup_hash`: check if there's any rule affecting the
given block hash. -/
def BlockRules.lookup_hash (r : BlockRules N H) (hash : H) :
    LookupResult H :=
  if hash ∈ r.bad then
    LookupResult.KnownBad
  else if hash ∈ r.unfinalized then
    LookupResult.KnownUnfinalized
  else
    LookupResult.NotSpecial

theorem bad_mark_unfinalized (r : BlockRules N H) (h : H) :
    (r.mark_unfinalized h).bad = r.bad := rfl

theorem forks_mark_unfinalized (r : BlockRules N H) (h : H) :
    (r.mark_unfinalized h).forks = r.forks := rfl

theorem mem_unfinalized_mark (r : BlockRules N H) (h x : H) :
    x ∈ (r.mark_unfinalized h).unfinalized ↔ x ∈ r.unfinalized ∨ x = h := by
  unfold BlockRules.mark_unfinalized insertHash
  by_cases hmem : h ∈ r.unfinalized
  · simp only [hmem, if_pos]
    constructor
    · exact Or.inl
    · rintro (hx | rfl)
      · exact hx
      · exact hmem
  · simp [hmem]

theorem bad_foldl_mark (r : BlockRules N H) (l : List H) :
    (l.foldl BlockRules.mark_unfinalized r).bad = r.bad := by
  induction l generalizing r with
  | nil => rfl
  | cons a l ih => exact ih (r.mark_unfinalized a)

theorem mem_unfinalized_foldl_mark (r : BlockRules N H) (l : List H) (x : H)
    (hx : x ∈ r.unfinalized) :
    x ∈ (l.foldl BlockRules.mark_unfinalized r).unfinalized := by
  induction l generalizing r with
  | nil => exact hx
  | cons a l ih =>
      exact ih (r.mark_unfinalized a)
        ((mem_unfinalized_mark r a x).mpr (Or.inl hx))

/-- C1: for every fork entry `(n, h*)` in `forks` and every candidate
hash `h ≠ h*`, `lookup n h` returns `Expected h*`, with no assumption on
membership of `h` in `bad` or `unfinalized`: the fork-mismatch check
takes strict precedence. -/
theorem C1_fork_mismatch_precedence (r : BlockRules N H) (n : N) (h hstar : H)
    (hfork : forksGet r.forks n = some hstar) (hne : h ≠ hstar) :
    r.lookup n h = LookupResult.Expected hstar := by
  unfold BlockRules.lookup
  rw [hfork]
  simp [Ne.symm hne]

/-- C1 witness: a concrete registry whose fork map sends height 7 to
hash 3; candidate hash 5 (also in `bad` and in `unfinalized`) is still
answered `Expected 3`. -/
theorem C1_fork_mismatch_precedence_witness :
    forksGet (N := Nat) (H := Nat) [(7, 3)] 7 = some 3 ∧ (5 : Nat) ≠ 3 ∧
      (BlockRules.mk [5] [5] [(7, 3)]).lookup 7 5 = LookupResult.Expected 3 :=
  ⟨by decide, by decide,
    C1_fork_mismatch_precedence (BlockRules.mk [5] [5] [(7, 3)]) 7 5 3
      (by decide) (by decide)⟩

/-- C2: for every hash `h` in `bad` and every height `n` at which the
fork map is either absent or stores `h` itself, `lookup n h` returns
`KnownBad`: a height-matched canonical block is still screened against
the bad set. -/
theorem C2_bad_screened_after_fork_pass (r : BlockRules N H) (n : N) (h : H)
    (hbad : h ∈ r.bad)
    (hfork : forksGet r.forks n = none ∨ forksGet r.forks n = some h) :
    r.lookup n h = LookupResult.KnownBad := by
  unfold BlockRules.lookup
  rcases hfork with hf | hf <;> rw [hf] <;> simp [hbad]

/-- C2 witness: hash 3 is the canonical fork hash at height 7 and is
also bad; `lookup 7 3` reports `KnownBad`, and so does a lookup at a
fork-free height. -/
theorem C2_bad_screened_after_fork_pass_witness :
    (3 : Nat) ∈ [(3 : Nat)] ∧
      forksGet (N := Nat) (H := Nat) [(7, 3)] 7 = some 3 ∧
      (BlockRules.mk [3] [] [(7, 3)]).lookup 7 3 = LookupResult.KnownBad ∧
      (BlockRules.mk [3] [] [(7, 3)]).lookup 8 3 = LookupResult.KnownBad :=
  ⟨by decide, by decide,
    C2_bad_screened_after_fork_pass (BlockRules.mk [3] [] [(7, 3)]) 7 3
      (by decide) (Or.inr (by decide)),
    C2_bad_screened_after_fork_pass (BlockRules.mk [3] [] [(7, 3)]) 8 3
      (by decide) (Or.inl (by decide))⟩

/-- C3: `lookup_hash` never returns `Expected`, and evaluates in the
order bad, then unfinalized, then `NotSpecial`; a hash in both `bad` and
`unfinalized` therefore yields `KnownBad`. -/
theorem C3_lookup_hash_order (r : BlockRules N H) (h : H) :
    (∀ e : H, r.lookup_hash h ≠ LookupResult.Expected e) ∧
      (h ∈ r.bad → r.lookup_hash h = LookupResult.KnownBad) ∧
      (h ∉ r.bad → h ∈ r.unfinalized →
        r.lookup_hash h = LookupResult.KnownUnfinalized) ∧
      (h ∉ r.bad → h ∉ r.unfinalized →
        r.lookup_hash h = LookupResult.NotSpecial) := by
  unfold BlockRules.lookup_hash
  refine ⟨?_, ?_, ?_, ?_⟩
  · intro e
    split
    · simp
    · split <;> simp
  · intro hb; simp [hb]
  · intro hb hu; simp [hb, hu]
  · intro hb hu; simp [hb, hu]

/-- C3 witness: on a registry where hash 4 is both bad and unfinalized,
`lookup_hash 4` is `KnownBad`; hash 9 (unfinalized only) is
`KnownUnfinalized`; hash 1 (in neither) is `NotSpecial`. -/
theorem C3_lookup_hash_order_witness :
    ((BlockRules.mk (N := Nat) [4] [4, 9] []).lookup_hash 4 =
        LookupResult.KnownBad) ∧
      ((BlockRules.mk (N := Nat) [4] [4, 9] []).lookup_hash 9 =
        LookupResult.KnownUnfinalized) ∧
      ((BlockRules.mk (N := Nat) [4] [4, 9] []).lookup_hash 1 =
        LookupResult.NotSpecial) :=
  ⟨(C3_lookup_hash_order (BlockRules.mk (N := Nat) [4] [4, 9] []) 4).2.1
      (by decide),
    (C3_lookup_hash_order (BlockRules.mk (N := Nat) [4] [4, 9] []) 9).2.2.1
      (by decide) (by decide),
    (C3_lookup_hash_order (BlockRules.mk (N := Nat) [4] [4, 9] []) 1).2.2.2
      (by decide) (by decide)⟩

/-- C8: `is_unfinalized` returns `true` exactly on the
`KnownUnfinalized` variant. -/
theorem C8_is_unfinalized_iff (res : LookupResult H) :
    res.is_unfinalized = true ↔ res = LookupResult.KnownUnfinalized := by
  cases res <;> simp [LookupResult.is_unfinalized]

/-- C10: at any height carrying no fork entry, `lookup` agrees with
`lookup_hash`; the two variants can only disagree at a height that has a
fork rule. -/
theorem C10_lookup_agrees_without_fork (r : BlockRules N H) (n : N) (h : H)
    (hfork : forksGet r.forks n = none) :
    r.lookup n h = r.lookup_hash h := by
  unfold BlockRules.lookup BlockRules.lookup_hash
  rw [hfork]

/-- C10 witness: a registry with a fork rule only at height 7; at height
8 (no fork entry) `lookup` and `lookup_hash` agree on the bad hash 4. -/
theorem C10_lookup_agrees_without_fork_witness :
    forksGet (N := Nat) (H := Nat) [(7, 3)] 8 = none ∧
      (BlockRules.mk [4] [9] [(7, 3)]).lookup 8 4 =
        (BlockRules.mk [4] [9] [(7, 3)]).lookup_hash 4 :=
  ⟨by decide,
    C10_lookup_agrees_without_fork (BlockRules.mk [4] [9] [(7, 3)]) 8 4
      (by decide)⟩

theorem mem_insertHash_self (s : List H) (h : H) : h ∈ insertHash s h := by
  unfold insertHash
  split
  · assumption
  · simp

theorem insertHash_idem (s : List H) (h : H) :
    insertHash (insertHash s h) h = insertHash s h := by
  by_cases hs : h ∈ s
  · simp [insertHash, hs]
  · simp [insertHash, hs]

theorem forksGet_concat (l : List (N × H)) (p : N × H) (n : N) :
    forksGet (l ++ [p]) n = if p.1 = n then some p.2 else forksGet l n := by
  simp [forksGet, List.foldl_append]

theorem forksGet_eq_filter_getLast (l : List (N × H)) (n : N) :
    forksGet l n =
      ((l.filter fun p => decide (p.1 = n)).getLast?).map Prod.snd := by
  induction l using List.reverseRecOn with
  | nil => rfl
  | append_singleton l p ih =>
      rw [forksGet_concat, List.filter_append]
      by_cases hp : p.1 = n
      · simp [hp, List.getLast?_concat]
      · simp [hp, ih]

/-- C4: after `mark_unfinalized h`, any later sequence of further
`mark_unfinalized` calls still leaves `lookup_hash h` reporting
`KnownUnfinalized`, provided `h` is not in `bad`. -/
theorem C4_marked_hash_reported_unfinalized (r : BlockRules N H) (h : H)
    (later : List H) (hb : h ∉ r.bad) :
    (later.foldl BlockRules.mark_unfinalized
        (r.mark_unfinalized h)).lookup_hash h =
      LookupResult.KnownUnfinalized := by
  have hbad :
      h ∉ (later.foldl BlockRules.mark_unfinalized
        (r.mark_unfinalized h)).bad := by
    rw [bad_foldl_mark, bad_mark_unfinalized]
    exact hb
  have hunf :
      h ∈ (later.foldl BlockRules.mark_unfinalized
        (r.mark_unfinalized h)).unfinalized :=
    mem_unfinalized_foldl_mark _ _ _
      ((mem_unfinalized_mark r h h).mpr (Or.inr rfl))
  unfold BlockRules.lookup_hash
  simp [hbad, hunf]

/-- C4 witness: hash 5 (not bad) marked unfinalized, then hashes 6 and 5
marked afterwards; `lookup_hash 5` is `KnownUnfinalized`. -/
theorem C4_marked_hash_reported_unfinalized_witness :
    (5 : Nat) ∉ (BlockRules.mk (N := Nat) [2] [] []).bad ∧
      (([6, 5] : List Nat).foldl BlockRules.mark_unfinalized
          ((BlockRules.mk (N := Nat) [2] [] []).mark_unfinalized 5)).lookup_hash
        5 = LookupResult.KnownUnfinalized :=
  ⟨by decide,
    C4_marked_hash_reported_unfinalized (BlockRules.mk (N := Nat) [2] [] [])
      5 [6, 5] (by decide)⟩

/-- C5: `mark_unfinalized` is idempotent: marking the same hash twice
yields the same registry state as marking it once. -/
theorem C5_mark_unfinalized_idempotent (r : BlockRules N H) (h : H) :
    (r.mark_unfinalized h).mark_unfinalized h = r.mark_unfinalized h := by
  simp [BlockRules.mark_unfinalized, insertHash_idem]

/-- C6: construction is total, initializes `bad` from the input set
(empty when absent), `forks` from the input pair sequence (empty when
absent) and `unfinalized` empty; with both inputs absent every `lookup`
and `lookup_hash` answers `NotSpecial`. -/
theorem C6_new_initialization (fb : Option (List (N × H)))
    (bb : Option (List H)) (n : N) (h : H) :
    (BlockRules.new fb bb).bad = bb.getD [] ∧
      (BlockRules.new fb bb).forks = fb.getD [] ∧
      (BlockRules.new fb bb).unfinalized = [] ∧
      (BlockRules.new (none : Option (List (N × H))) none).lookup n h =
        LookupResult.NotSpecial ∧
      (BlockRules.new (none : Option (List (N × H))) none).lookup_hash h =
        LookupResult.NotSpecial := by
  refine ⟨rfl, rfl, rfl, ?_, ?_⟩ <;>
    simp [BlockRules.new, BlockRules.lookup, BlockRules.lookup_hash, forksGet]

/-- C7: when the fork-block sequence has several pairs at one height,
the constructed map's value at that height is the hash of the last such
pair in iteration order; the query is single-valued per height. -/
theorem C7_duplicate_heights_last_wins (fb : List (N × H))
    (bb : Option (List H)) (n : N) :
    forksGet (BlockRules.new (some fb) bb).forks n =
      ((fb.filter fun p => decide (p.1 = n)).getLast?).map Prod.snd :=
  forksGet_eq_filter_getLast fb n

/-- C9: `mark_unfinalized h` leaves `bad` and `forks` unchanged and
turns `unfinalized` into its union with `{h}`; in particular nothing is
ever removed from any of the three collections. -/
theorem C9_mark_unfinalized_frame (r : BlockRules N H) (h : H) :
    (r.mark_unfinalized h).bad = r.bad ∧
      (r.mark_unfinalized h).forks = r.forks ∧
      (∀ x : H, x ∈ (r.mark_unfinalized h).unfinalized ↔
        x ∈ r.unfinalized ∨ x = h) :=
  ⟨rfl, rfl, fun x => mem_unfinalized_mark r h x⟩

end BlockRulesSpec
